import Mathlib

/-!
Verification of the host execution engine of `src/main/host/host.rs`
(a per-machine discrete-event scheduler: time-ordered event queue,
CPU-contention rescheduling, deterministic counters, and the
shared-memory locking protocol).

Times are modelled as natural numbers: `EmulatedTime` is an absolute
nanosecond count and `SimulationTime` a nanosecond duration, so events
carry a `Nat` timestamp and CPU delays are `Nat` durations.

Only `host.rs` is in scope as source; the event queue
(`core/work/event_queue.rs`), the event type (`core/work/event.rs`),
the CPU delay model (`host/cpu.rs`), the task abstraction
(`core/work/task.rs`) and the `Worker` ambient time slot live in other
files of the repository and are modelled from the specification, as
marked on each definition below.
-/

namespace Shadow

/-- Lexicographic order on `(time, sequence)` keys, the ordering key of
events per the specification. -/
def keyLe (a b : Nat × Nat) : Prop :=
  a.1 < b.1 ∨ (a.1 = b.1 ∧ a.2 ≤ b.2)

instance : DecidableRel keyLe := fun a b => by
  unfold keyLe; infer_instance

/-- Modelled from the spec: the `Event` type of `core/work/event.rs` (not
under src/): a pending work item `{ task, time, destination-host, sequence }`.
The task is identified by an abstract id `tid`; the destination host is
omitted since the model is single-host. -/
structure Event where
  time : Nat
  seq : Nat
  tid : Nat
deriving DecidableEq, Repr

/-- Ordering key `(time, sequence)` of an event. -/
def Event.key (e : Event) : Nat × Nat := (e.time, e.seq)

/-- Event order used by the queue: lexicographic on `(time, sequence)`. -/
def evLe (a b : Event) : Prop := keyLe a.key b.key

instance : DecidableRel evLe := fun a b => by
  unfold evLe; infer_instance

/-- Modelled from the spec: `EventQueue::push` of `core/work/event_queue.rs`
(not under src/): inserts the event into the comparison-ordered collection.
The queue is represented as a list sorted by `(time, sequence)`; push is
ordered insertion, keeping already-present events first on equal keys. -/
def push (e : Event) : List Event → List Event
  | [] => [e]
  | f :: rest => if evLe f e then f :: push e rest else e :: f :: rest

/-- Modelled from the spec: `EventQueue::next_event_time` (not under src/):
peeks the minimum element's time without removing it, `none` on empty. -/
def next_event_time (q : List Event) : Option Nat :=
  match q with
  | [] => none
  | e :: _ => some e.time

/-- Modelled from the spec: `EventQueue::pop` (not under src/): removes and
returns the minimum `(time, sequence)` element, `none` on empty. -/
def pop (q : List Event) : Option (Event × List Event) :=
  match q with
  | [] => none
  | e :: rest => some (e, rest)

/-! ### Deterministic counters (`Host::get_new_*`, host.rs lines 506-534)

The counter cells of `Host`: `process_id_counter : Cell<u32>`,
`event_id_counter`, `packet_id_counter`,
`determinism_sequence_counter : Cell<u64>` and
`packet_priority_counter : Cell<f64>`.  The `u32`/`u64` cells are
modelled as naturals reduced modulo `2^32` / `2^64` at the increment
(Rust release-mode wrapping semantics of `res + 1`).  The `f64` cell
only ever holds the integer-valued floats `1.0, 2.0, ...` obtained by
repeatedly adding `1.0`; this sequence is exact below `2^53` and sticks
at `2^53` (adding `1.0` to `2^53` rounds back to `2^53`), so it is
modelled as a natural with a saturating increment at `2^53`. -/

structure Counters where
  processId : Nat
  eventId : Nat
  packetId : Nat
  detSeq : Nat
  packetPriority : Nat
deriving DecidableEq, Repr

/-- Host::new counter initialization (host.rs lines 224-230): process ids
start at 1000, packet priorities at 1.0, the rest at 0. -/
def initCounters : Counters :=
  { processId := 1000, eventId := 0, packetId := 0, detSeq := 0, packetPriority := 1 }

/-- Host::get_new_event_id (host.rs): read then increment the u64 cell. -/
def get_new_event_id (c : Counters) : Nat × Counters :=
  (c.eventId, { c with eventId := (c.eventId + 1) % 2 ^ 64 })

/-- Host::get_new_process_id (host.rs): read then increment the u32 cell. -/
def get_new_process_id (c : Counters) : Nat × Counters :=
  (c.processId, { c with processId := (c.processId + 1) % 2 ^ 32 })

/-- Host::get_new_packet_id (host.rs): read then increment the u64 cell. -/
def get_new_packet_id (c : Counters) : Nat × Counters :=
  (c.packetId, { c with packetId := (c.packetId + 1) % 2 ^ 64 })

/-- Host::get_next_deterministic_sequence_value (host.rs). -/
def get_next_deterministic_sequence_value (c : Counters) : Nat × Counters :=
  (c.detSeq, { c with detSeq := (c.detSeq + 1) % 2 ^ 64 })

/-- Host::get_next_packet_priority (host.rs): read then add 1.0 to the f64
cell; the addition saturates at 2^53 (see the section comment). -/
def get_next_packet_priority (c : Counters) : Nat × Counters :=
  (c.packetPriority, { c with packetPriority := min (c.packetPriority + 1) (2 ^ 53) })

/-- Selector for one of the five counters, used to express interleavings of
calls to the different counters. -/
inductive CounterKind
  | event
  | process
  | packet
  | detSeq
  | priority
deriving DecidableEq, Repr

/-- Dispatch one get-next call to the selected counter. -/
def stepCounter : CounterKind → Counters → Nat × Counters
  | .event, c => get_new_event_id c
  | .process, c => get_new_process_id c
  | .packet, c => get_new_packet_id c
  | .detSeq, c => get_next_deterministic_sequence_value c
  | .priority, c => get_next_packet_priority c

/-- Run an interleaved sequence of counter calls and collect the values
returned by the calls to counter `k`, in call order. -/
def resultsFor (k : CounterKind) : List CounterKind → Counters → List Nat
  | [], _ => []
  | cmd :: rest, c =>
    let r := stepCounter cmd c
    if cmd = k then r.1 :: resultsFor k rest r.2 else resultsFor k rest r.2

/-- Number of get-next calls a counter can take from its initial value
before its cell wraps (u32/u64) or saturates (f64). -/
def capacity : CounterKind → Nat
  | .event => 2 ^ 64
  | .process => 2 ^ 32 - 1000
  | .packet => 2 ^ 64
  | .detSeq => 2 ^ 64
  | .priority => 2 ^ 53

/-- Raw cell value of the selected counter. -/
def readC : CounterKind → Counters → Nat
  | .event, c => c.eventId
  | .process, c => c.processId
  | .packet, c => c.packetId
  | .detSeq, c => c.detSeq
  | .priority, c => c.packetPriority

/-- Cell update performed by one get-next call on the selected counter. -/
def updFn : CounterKind → Nat → Nat
  | .event => fun v => (v + 1) % 2 ^ 64
  | .process => fun v => (v + 1) % 2 ^ 32
  | .packet => fun v => (v + 1) % 2 ^ 64
  | .detSeq => fun v => (v + 1) % 2 ^ 64
  | .priority => fun v => min (v + 1) (2 ^ 53)

/-! ### The execution loop (`Host::execute`, host.rs lines 636-682) -/

/-- Modelled from the spec: the CPU delay model of `host/cpu.rs` (not under
src/), represented abstractly by the two operations `Host::execute` uses:
`update_time` advances the bookkeeping to the given emulated time and
`delay` reports the currently owed, quantized delay. -/
structure CpuModel (σ : Type) where
  update_time : σ → Nat → σ
  delay : σ → Nat

/-- Modelled from the spec: the opaque task callable of `core/work/task.rs`
(not under src/).  Running task `tid` at emulated time `now` with CPU state
`cpu` either panics (`none`, propagated as a fatal failure) or returns the
list of `(time, tid)` events it schedules on this host via
`schedule_task_at_emulated_time` together with the CPU state it leaves
behind (tasks may add CPU delay). -/
structure TaskModel (σ : Type) where
  run : Nat → Nat → σ → Option (List (Nat × Nat) × σ)

/-- The parts of `Host` state that `Host::execute` touches: the event queue,
the CPU delay model state, the optional tracker (modelled as the list of
virtual-processing-delay notifications it has received), the configured
`params.sim_end_time`, the `Worker` ambient current-time slot (modelled from
the spec as a host-scoped cell: `Worker::set_current_time` /
`Worker::clear_current_time` live outside src/), and the event id counter
from which `Event::new` draws creation sequence numbers (modelled from the
spec as an ideal monotonic counter). -/
structure ExecState (σ : Type) where
  queue : List Event
  cpu : σ
  tracker : Option (List Nat)
  simEndTime : Nat
  currentTime : Option Nat
  eventIdCounter : Nat

/-- Host::push_local_event (host.rs lines 559-565): reject events
timestamped at or after `params.sim_end_time`, otherwise insert into the
event queue and report success. -/
def push_local_event {σ : Type} (st : ExecState σ) (e : Event) : Bool × ExecState σ :=
  if st.simEndTime ≤ e.time then (false, st)
  else (true, { st with queue := push e st.queue })

/-- Host::schedule_task_at_emulated_time (host.rs lines 546-549): build an
event for the task at time `t` (Event::new, modelled from the spec, assigns
the creation sequence from the host's monotonic event id counter) and push
it locally. -/
def schedule_task_at_emulated_time {σ : Type} (st : ExecState σ) (tid t : Nat) :
    Bool × ExecState σ :=
  push_local_event { st with eventIdCounter := st.eventIdCounter + 1 }
    { time := t, seq := st.eventIdCounter, tid := tid }

/-- Schedule each `(time, tid)` pair in order, discarding the boolean
results (this is how a task's scheduling side effects are replayed). -/
def schedList {σ : Type} : List (Nat × Nat) → ExecState σ → ExecState σ
  | [], st => st
  | p :: ps, st => schedList ps (schedule_task_at_emulated_time st p.2 p.1).2

/-- Observable events of one `Host::execute` call, recorded in order. -/
inductive TraceEntry
  | popped (e : Event)
  | rescheduled (e : Event) (d : Nat)
  | executed (e : Event)
  | taskPanicked (e : Event)
deriving DecidableEq, Repr

/-- How a `Host::execute` call ended: normal return (queue empty or next
event at or past `until`), propagation of a task panic, exhaustion of the
step budget of the model, or the unreachable failure of the internal
`pop().unwrap()`. -/
inductive Outcome
  | completed
  | panicked
  | outOfFuel
  | internalError
deriving DecidableEq, Repr

/-- Host::execute (host.rs lines 636-682), with an explicit step budget
`fuel` bounding the number of loop iterations.  Each iteration: peek
`next_event_time`; return if none or not strictly before `untl`; pop
(the `unwrap` is rendered as the `Outcome.internalError` branch); advance
the CPU model to the event's time and query the owed delay; if positive,
notify the tracker, re-push the event at `time + delay` and continue;
otherwise publish the event time in the current-time slot, run the task
(a panic propagates immediately, leaving the state as it was at the
panic), replay its scheduling effects, clear the slot and continue. -/
def execute {σ : Type} (M : CpuModel σ) (T : TaskModel σ) (untl : Nat) :
    Nat → ExecState σ → Outcome × ExecState σ × List TraceEntry
  | 0, st => (Outcome.outOfFuel, st, [])
  | fuel + 1, st =>
    match next_event_time st.queue with
    | none => (Outcome.completed, st, [])
    | some t =>
      if t < untl then
        match pop st.queue with
        | none => (Outcome.internalError, st, [])
        | some (ev, rest) =>
          let cpu1 := M.update_time st.cpu ev.time
          let d := M.delay cpu1
          if 0 < d then
            let ev2 : Event := { ev with time := ev.time + d }
            let st1 : ExecState σ :=
              (push_local_event
                { st with queue := rest, cpu := cpu1,
                          tracker := st.tracker.map (fun l => l ++ [d]) } ev2).2
            let r := execute M T untl fuel st1
            (r.1, r.2.1, TraceEntry.popped ev :: TraceEntry.rescheduled ev2 d :: r.2.2)
          else
            let stRun : ExecState σ :=
              { st with queue := rest, cpu := cpu1, currentTime := some ev.time }
            match T.run ev.tid ev.time cpu1 with
            | none =>
              (Outcome.panicked, stRun, [TraceEntry.popped ev, TraceEntry.taskPanicked ev])
            | some (evts, cpu2) =>
              let st3 : ExecState σ :=
                { schedList evts { stRun with cpu := cpu2 } with currentTime := none }
              let r := execute M T untl fuel st3
              (r.1, r.2.1, TraceEntry.popped ev :: TraceEntry.executed ev :: r.2.2)
      else (Outcome.completed, st, [])

/-- Keys of the events popped during a run, in pop order. -/
def popKeys : List TraceEntry → List (Nat × Nat)
  | [] => []
  | TraceEntry.popped e :: tr => e.key :: popKeys tr
  | _ :: tr => popKeys tr

/-- A task model never schedules an event earlier than the time it is
running at (the discipline of `schedule_task_with_delay`-style callers). -/
def NoPastScheduling {σ : Type} (T : TaskModel σ) : Prop :=
  ∀ tid now cpu evts cpu2, T.run tid now cpu = some (evts, cpu2) →
    ∀ p ∈ evts, now ≤ p.1

/-! ### The shared-memory lock protocol
(`Host::lock_shmem` / `Host::unlock_shmem` / `Drop`, host.rs 709-758)

The cached guard slot `shim_shmem_lock : RefCell<Option<...Guard...>>` is
modelled as an `Option` over an opaque guard token; a failed `assert!`
(a fatal panic) is rendered as the `none` result. -/

inductive ShmemGuard
  | guard
deriving DecidableEq, Repr

/-- Host::lock_shmem (host.rs lines 709-729): take the lock, cache the
guard with `replace`, and assert the previous cached value was `None`
(a cached guard means a non-reentrant double acquire: fatal). -/
def lock_shmem (cached : Option ShmemGuard) : Option (Option ShmemGuard) :=
  let prev := cached
  let cached1 := some ShmemGuard.guard
  if prev.isNone then some cached1 else none

/-- Host::unlock_shmem (host.rs lines 731-734): `take` the cached guard and
assert one was present (release without acquire is fatal). -/
def unlock_shmem (cached : Option ShmemGuard) : Option (Option ShmemGuard) :=
  let prev := cached
  if prev.isSome then some none else none

/-- Drop for Host (host.rs lines 743-758): teardown asserts the cached
guard slot is empty; `none` renders the fatal assert when a guard is
outstanding, `some ()` a successful teardown. -/
def host_drop (cached : Option ShmemGuard) : Option Unit :=
  if cached.isNone then some () else none

/-! ### Concrete CPU models, task models and states used as test inputs -/

/-- CPU model owing no delay; its state is trivial. -/
def cpuZero : CpuModel Unit :=
  { update_time := fun _ _ => (), delay := fun _ => 0 }

/-- CPU model owing a constant delay `d` at every query. -/
def cpuConst (d : Nat) : CpuModel Unit :=
  { update_time := fun _ _ => (), delay := fun _ => d }

/-- Task that schedules nothing and never panics. -/
def taskNop : TaskModel Unit :=
  { run := fun _ _ _ => some ([], ()) }

/-- Task that always panics. -/
def taskPanics : TaskModel Unit :=
  { run := fun _ _ _ => none }

/-- Task id 0 schedules a new event at absolute time 0 (in the past); all
other task ids schedule nothing. -/
def taskPast : TaskModel Unit :=
  { run := fun tid _ c => if tid = 0 then some ([(0, 1)], c) else some ([], c) }

/-- State with one event at time 5 and a far-away simulation end. -/
def stOneAt5 : ExecState Unit :=
  { queue := [⟨5, 0, 0⟩], cpu := (), tracker := none, simEndTime := 100,
    currentTime := none, eventIdCounter := 1 }

/-- State with two same-time events at time 3, in creation order. -/
def stTwoAt3 : ExecState Unit :=
  { queue := [⟨3, 0, 0⟩, ⟨3, 1, 1⟩], cpu := (), tracker := none, simEndTime := 100,
    currentTime := none, eventIdCounter := 2 }

/-- State with one event at time 3 and an attached (empty) tracker. -/
def stTracked : ExecState Unit :=
  { queue := [⟨3, 0, 0⟩], cpu := (), tracker := some [], simEndTime := 100,
    currentTime := none, eventIdCounter := 1 }

/-- State with one event at time 5 and simulation end at 10, so a
rescheduling delay of 7 lands the event past the end of the simulation. -/
def stNearEnd : ExecState Unit :=
  { queue := [⟨5, 0, 0⟩], cpu := (), tracker := some [], simEndTime := 10,
    currentTime := none, eventIdCounter := 1 }

/-- State with a single event at time 4. -/
def stOneAt4 : ExecState Unit :=
  { queue := [⟨4, 0, 0⟩], cpu := (), tracker := none, simEndTime := 100,
    currentTime := none, eventIdCounter := 1 }

/-! ## Helper lemmas about the key order and the queue -/

lemma keyLe_total (a b : Nat × Nat) : keyLe a b ∨ keyLe b a := by
  unfold keyLe; omega

lemma keyLe_trans {a b c : Nat × Nat} (h1 : keyLe a b) (h2 : keyLe b c) : keyLe a c := by
  unfold keyLe at h1 h2 ⊢; omega

lemma keyLe_bot (a : Nat × Nat) : keyLe (0, 0) a := by
  unfold keyLe; omega

lemma mem_push {e a : Event} : ∀ {l : List Event}, a ∈ push e l ↔ a = e ∨ a ∈ l := by
  intro l
  induction l with
  | nil => simp [push]
  | cons f r ih =>
    by_cases h : evLe f e
    · simp only [push, if_pos h, List.mem_cons, ih]
      tauto
    · simp only [push, if_neg h, List.mem_cons]

lemma sorted_push {e : Event} : ∀ {l : List Event},
    List.Pairwise evLe l → List.Pairwise evLe (push e l) := by
  intro l
  induction l with
  | nil => intro _; simp [push]
  | cons f r ih =>
    intro hp
    rcases List.pairwise_cons.mp hp with ⟨hf, hr⟩
    by_cases h : evLe f e
    · rw [push, if_pos h]
      refine List.pairwise_cons.mpr ⟨?_, ih hr⟩
      intro x hx
      rcases mem_push.mp hx with rfl | hx
      · exact h
      · exact hf x hx
    · rw [push, if_neg h]
      have he : evLe e f := by
        rcases keyLe_total f.key e.key with h1 | h1
        · exact absurd h1 h
        · exact h1
      refine List.pairwise_cons.mpr ⟨?_, hp⟩
      intro x hx
      rcases List.mem_cons.mp hx with rfl | hx
      · exact he
      · exact keyLe_trans he (hf x hx)

lemma push_local_event_cases {σ : Type} (st : ExecState σ) (e : Event) :
    (push_local_event st e).2 = st ∨
    (push_local_event st e).2 = { st with queue := push e st.queue } := by
  unfold push_local_event
  split
  · left; rfl
  · right; rfl

lemma schedule_step_inv {σ : Type} {tk sk : Nat} (st : ExecState σ) (tid t : Nat)
    (h1 : List.Pairwise evLe st.queue)
    (h2 : ∀ e ∈ st.queue, e.seq < st.eventIdCounter)
    (h3 : ∀ e ∈ st.queue, keyLe (tk, sk) e.key)
    (h4 : sk < st.eventIdCounter)
    (ht : tk ≤ t) :
    List.Pairwise evLe (schedule_task_at_emulated_time st tid t).2.queue ∧
    (∀ e ∈ (schedule_task_at_emulated_time st tid t).2.queue,
        e.seq < (schedule_task_at_emulated_time st tid t).2.eventIdCounter) ∧
    (∀ e ∈ (schedule_task_at_emulated_time st tid t).2.queue, keyLe (tk, sk) e.key) ∧
    sk < (schedule_task_at_emulated_time st tid t).2.eventIdCounter := by
  simp only [schedule_task_at_emulated_time, push_local_event]
  split
  · refine ⟨h1, ?_, h3, Nat.lt_trans h4 (Nat.lt_succ_self _)⟩
    intro e he
    exact Nat.lt_trans (h2 e he) (Nat.lt_succ_self _)
  · refine ⟨sorted_push h1, ?_, ?_, Nat.lt_trans h4 (Nat.lt_succ_self _)⟩
    · intro e he
      rcases mem_push.mp he with rfl | he
      · exact Nat.lt_succ_self _
      · exact Nat.lt_trans (h2 e he) (Nat.lt_succ_self _)
    · intro e he
      rcases mem_push.mp he with rfl | he
      · show keyLe (tk, sk) (t, st.eventIdCounter)
        unfold keyLe
        simp only []
        omega
      · exact h3 e he

lemma schedList_inv {σ : Type} (tk sk : Nat) :
    ∀ (evts : List (Nat × Nat)) (st : ExecState σ),
      List.Pairwise evLe st.queue →
      (∀ e ∈ st.queue, e.seq < st.eventIdCounter) →
      (∀ e ∈ st.queue, keyLe (tk, sk) e.key) →
      sk < st.eventIdCounter →
      (∀ p ∈ evts, tk ≤ p.1) →
      List.Pairwise evLe (schedList evts st).queue ∧
      (∀ e ∈ (schedList evts st).queue, e.seq < (schedList evts st).eventIdCounter) ∧
      (∀ e ∈ (schedList evts st).queue, keyLe (tk, sk) e.key) := by
  intro evts
  induction evts with
  | nil => intro st h1 h2 h3 _ _; exact ⟨h1, h2, h3⟩
  | cons p ps ih =>
    intro st h1 h2 h3 h4 h5
    have hp : tk ≤ p.1 := h5 p (List.mem_cons_self p ps)
    have h5' : ∀ q ∈ ps, tk ≤ q.1 := fun q hq => h5 q (List.mem_cons_of_mem p hq)
    rw [schedList]
    obtain ⟨g1, g2, g3, g4⟩ := schedule_step_inv st p.2 p.1 h1 h2 h3 h4 hp
    exact ih (schedule_task_at_emulated_time st p.2 p.1).2 g1 g2 g3 g4 h5'

lemma push_local_event_inv {σ : Type} (k : Nat × Nat) (B : ExecState σ) (E : Event)
    (h1 : List.Pairwise evLe B.queue)
    (h2 : ∀ e ∈ B.queue, e.seq < B.eventIdCounter)
    (h3 : ∀ e ∈ B.queue, keyLe k e.key)
    (hE1 : E.seq < B.eventIdCounter)
    (hE2 : keyLe k E.key) :
    List.Pairwise evLe (push_local_event B E).2.queue ∧
    (∀ e ∈ (push_local_event B E).2.queue, e.seq < (push_local_event B E).2.eventIdCounter) ∧
    (∀ e ∈ (push_local_event B E).2.queue, keyLe k e.key) := by
  rcases push_local_event_cases B E with h | h <;> rw [h]
  · exact ⟨h1, h2, h3⟩
  · refine ⟨sorted_push h1, ?_, ?_⟩
    · intro e he
      rcases mem_push.mp he with rfl | he
      · exact hE1
      · exact h2 e he
    · intro e he
      rcases mem_push.mp he with rfl | he
      · exact hE2
      · exact h3 e he

@[simp] lemma popKeys_nil : popKeys [] = [] := rfl

@[simp] lemma popKeys_cons_popped (e : Event) (tr : List TraceEntry) :
    popKeys (TraceEntry.popped e :: tr) = e.key :: popKeys tr := rfl

@[simp] lemma popKeys_cons_rescheduled (e : Event) (d : Nat) (tr : List TraceEntry) :
    popKeys (TraceEntry.rescheduled e d :: tr) = popKeys tr := rfl

@[simp] lemma popKeys_cons_executed (e : Event) (tr : List TraceEntry) :
    popKeys (TraceEntry.executed e :: tr) = popKeys tr := rfl

@[simp] lemma popKeys_cons_taskPanicked (e : Event) (tr : List TraceEntry) :
    popKeys (TraceEntry.taskPanicked e :: tr) = popKeys tr := rfl

lemma exec_chain {σ : Type} (M : CpuModel σ) (T : TaskModel σ) (untl : Nat)
    (hT : NoPastScheduling T) :
    ∀ (fuel : Nat) (st : ExecState σ) (k : Nat × Nat),
      List.Pairwise evLe st.queue →
      (∀ e ∈ st.queue, e.seq < st.eventIdCounter) →
      (∀ e ∈ st.queue, keyLe k e.key) →
      List.Chain keyLe k (popKeys (execute M T untl fuel st).2.2) ∧
      List.Pairwise evLe (execute M T untl fuel st).2.1.queue ∧
      (∀ e ∈ (execute M T untl fuel st).2.1.queue,
        e.seq < (execute M T untl fuel st).2.1.eventIdCounter) := by
  intro fuel
  induction fuel with
  | zero =>
    intro st k h1 h2 h3
    simp only [execute, popKeys]
    exact ⟨List.Chain.nil, h1, h2⟩
  | succ fuel ih =>
    intro st k h1 h2 h3
    cases hq : st.queue with
    | nil =>
      simp only [execute, hq, next_event_time, popKeys]
      rw [hq] at h1 h2
      exact ⟨List.Chain.nil, h1, h2⟩
    | cons ev rest =>
      rw [hq] at h1 h2 h3
      rcases List.pairwise_cons.mp h1 with ⟨hf, hr⟩
      have hseq : ev.seq < st.eventIdCounter := h2 ev (List.mem_cons_self ev rest)
      have hk : keyLe k ev.key := h3 ev (List.mem_cons_self ev rest)
      have h2r : ∀ e ∈ rest, e.seq < st.eventIdCounter :=
        fun e he => h2 e (List.mem_cons_of_mem ev he)
      by_cases hlt : ev.time < untl
      · simp only [execute, hq, next_event_time, pop, if_pos hlt]
        by_cases hd : 0 < M.delay (M.update_time st.cpu ev.time)
        · simp only [if_pos hd, popKeys_cons_popped, popKeys_cons_rescheduled]
          have hE2 : keyLe ev.key
              (Event.key { ev with time := ev.time + M.delay (M.update_time st.cpu ev.time) }) := by
            show keyLe (ev.time, ev.seq) (ev.time + M.delay (M.update_time st.cpu ev.time), ev.seq)
            unfold keyLe
            simp only []
            omega
          obtain ⟨i1, i2, i3⟩ :=
            push_local_event_inv ev.key
              { st with queue := rest, cpu := M.update_time st.cpu ev.time,
                        tracker := st.tracker.map
                          (fun l => l ++ [M.delay (M.update_time st.cpu ev.time)]) }
              { ev with time := ev.time + M.delay (M.update_time st.cpu ev.time) }
              hr h2r hf hseq hE2
          obtain ⟨c1, c2, c3⟩ := ih _ ev.key i1 i2 i3
          exact ⟨List.chain_cons.mpr ⟨hk, c1⟩, c2, c3⟩
        · simp only [if_neg hd]
          cases hrun : T.run ev.tid ev.time (M.update_time st.cpu ev.time) with
          | none =>
            simp only [popKeys_cons_popped, popKeys_cons_taskPanicked, popKeys_nil]
            exact ⟨List.chain_cons.mpr ⟨hk, List.Chain.nil⟩, hr, h2r⟩
          | some val =>
            obtain ⟨evts, cpu2⟩ := val
            simp only [popKeys_cons_popped, popKeys_cons_executed]
            have hevts : ∀ p ∈ evts, ev.time ≤ p.1 :=
              hT ev.tid ev.time (M.update_time st.cpu ev.time) evts cpu2 hrun
            obtain ⟨s1, s2, s3⟩ :=
              schedList_inv ev.time ev.seq evts
                { st with queue := rest, cpu := cpu2, currentTime := some ev.time }
                hr h2r hf hseq hevts
            obtain ⟨c1, c2, c3⟩ :=
              ih { schedList evts
                     { st with queue := rest, cpu := cpu2, currentTime := some ev.time } with
                   currentTime := none } ev.key s1 s2 s3
            exact ⟨List.chain_cons.mpr ⟨hk, c1⟩, c2, c3⟩
      · simp only [execute, hq, next_event_time, pop, if_neg hlt, popKeys_nil]
        exact ⟨List.Chain.nil, h1, h2⟩

lemma exec_completed {σ : Type} (M : CpuModel σ) (T : TaskModel σ) (untl : Nat) :
    ∀ (fuel : Nat) (st : ExecState σ),
      (execute M T untl fuel st).1 = Outcome.completed →
      ∀ t, next_event_time (execute M T untl fuel st).2.1.queue = some t → untl ≤ t := by
  intro fuel
  induction fuel with
  | zero =>
    intro st h
    simp only [execute] at h
    cases h
  | succ fuel ih =>
    intro st h
    cases hq : st.queue with
    | nil =>
      simp only [execute, hq, next_event_time]
      intro t ht
      cases ht
    | cons ev rest =>
      by_cases hlt : ev.time < untl
      · simp only [execute, hq, next_event_time, pop, if_pos hlt] at h ⊢
        by_cases hd : 0 < M.delay (M.update_time st.cpu ev.time)
        · simp only [if_pos hd] at h ⊢
          exact ih _ h
        · simp only [if_neg hd] at h ⊢
          cases hrun : T.run ev.tid ev.time (M.update_time st.cpu ev.time) with
          | none =>
            rw [hrun] at h
            simp only [] at h
            cases h
          | some val =>
            obtain ⟨evts, cpu2⟩ := val
            rw [hrun] at h
            simp only [] at h ⊢
            exact ih _ h
      · simp only [execute, hq, next_event_time, pop, if_neg hlt]
        intro t ht
        have : ev.time = t := Option.some.inj ht
        omega

lemma exec_ct {σ : Type} (M : CpuModel σ) (T : TaskModel σ) (untl : Nat) :
    ∀ (fuel : Nat) (st : ExecState σ),
      st.currentTime = none →
      (execute M T untl fuel st).1 ≠ Outcome.panicked →
      (execute M T untl fuel st).2.1.currentTime = none := by
  intro fuel
  induction fuel with
  | zero =>
    intro st hct _
    simpa only [execute] using hct
  | succ fuel ih =>
    intro st hct hp
    cases hq : st.queue with
    | nil => simpa only [execute, hq, next_event_time] using hct
    | cons ev rest =>
      by_cases hlt : ev.time < untl
      · simp only [execute, hq, next_event_time, pop, if_pos hlt] at hp ⊢
        by_cases hd : 0 < M.delay (M.update_time st.cpu ev.time)
        · simp only [if_pos hd] at hp ⊢
          refine ih _ ?_ hp
          rcases push_local_event_cases
              { st with queue := rest, cpu := M.update_time st.cpu ev.time,
                        tracker := st.tracker.map
                          (fun l => l ++ [M.delay (M.update_time st.cpu ev.time)]) }
              { ev with time := ev.time + M.delay (M.update_time st.cpu ev.time) }
              with h | h <;> rw [h] <;> exact hct
        · simp only [if_neg hd] at hp ⊢
          cases hrun : T.run ev.tid ev.time (M.update_time st.cpu ev.time) with
          | none =>
            rw [hrun] at hp
            simp only [] at hp
            exact absurd rfl hp
          | some val =>
            obtain ⟨evts, cpu2⟩ := val
            rw [hrun] at hp
            simp only [] at hp ⊢
            exact ih _ rfl hp
      · simpa only [execute, hq, next_event_time, pop, if_neg hlt] using hct

lemma exec_no_internal {σ : Type} (M : CpuModel σ) (T : TaskModel σ) (untl : Nat) :
    ∀ (fuel : Nat) (st : ExecState σ),
      (execute M T untl fuel st).1 ≠ Outcome.internalError ∧
      ((execute M T untl fuel st).1 = Outcome.panicked →
        ∃ e, TraceEntry.taskPanicked e ∈ (execute M T untl fuel st).2.2) := by
  intro fuel
  induction fuel with
  | zero =>
    intro st
    simp only [execute]
    exact ⟨fun h => Outcome.noConfusion h, fun h => Outcome.noConfusion h⟩
  | succ fuel ih =>
    intro st
    cases hq : st.queue with
    | nil =>
      simp only [execute, hq, next_event_time]
      exact ⟨fun h => Outcome.noConfusion h, fun h => Outcome.noConfusion h⟩
    | cons ev rest =>
      by_cases hlt : ev.time < untl
      · simp only [execute, hq, next_event_time, pop, if_pos hlt]
        by_cases hd : 0 < M.delay (M.update_time st.cpu ev.time)
        · simp only [if_pos hd]
          obtain ⟨n1, n2⟩ := ih ((push_local_event
              { st with queue := rest, cpu := M.update_time st.cpu ev.time,
                        tracker := st.tracker.map
                          (fun l => l ++ [M.delay (M.update_time st.cpu ev.time)]) }
              { ev with time := ev.time + M.delay (M.update_time st.cpu ev.time) }).2)
          refine ⟨n1, fun h => ?_⟩
          obtain ⟨e, he⟩ := n2 h
          exact ⟨e, List.mem_cons_of_mem _ (List.mem_cons_of_mem _ he)⟩
        · simp only [if_neg hd]
          cases hrun : T.run ev.tid ev.time (M.update_time st.cpu ev.time) with
          | none =>
            refine ⟨fun h => Outcome.noConfusion h, fun _ => ?_⟩
            exact ⟨ev, List.mem_cons_of_mem _ (List.mem_cons_self _ _)⟩
          | some val =>
            obtain ⟨evts, cpu2⟩ := val
            simp only []
            obtain ⟨n1, n2⟩ := ih { schedList evts
                { st with queue := rest, cpu := cpu2, currentTime := some ev.time } with
              currentTime := none }
            refine ⟨n1, fun h => ?_⟩
            obtain ⟨e, he⟩ := n2 h
            exact ⟨e, List.mem_cons_of_mem _ (List.mem_cons_of_mem _ he)⟩
      · simp only [execute, hq, next_event_time, pop, if_neg hlt]
        exact ⟨fun h => Outcome.noConfusion h, fun h => Outcome.noConfusion h⟩

/-! ## Helper lemmas about the counters -/

lemma iterate_mod_add (m : Nat) :
    ∀ (j a : Nat), a + j < m → (fun v => (v + 1) % m)^[j] a = a + j := by
  intro j
  induction j with
  | zero => intro a _; simp
  | succ j ih =>
    intro a h
    rw [Function.iterate_succ_apply]
    show (fun v => (v + 1) % m)^[j] ((a + 1) % m) = a + (j + 1)
    rw [Nat.mod_eq_of_lt (by omega : a + 1 < m)]
    rw [ih (a + 1) (by omega)]
    omega

lemma iterate_mod_wrap (m : Nat) (a j : Nat) (hj : 0 < j) (h : a + j = m) :
    (fun v => (v + 1) % m)^[j] a = 0 := by
  obtain ⟨j1, rfl⟩ : ∃ j1, j = j1 + 1 := ⟨j - 1, by omega⟩
  rw [Function.iterate_succ_apply']
  rw [iterate_mod_add m j1 a (by omega)]
  show (a + j1 + 1) % m = 0
  rw [(by omega : a + j1 + 1 = m)]
  exact Nat.mod_self m

lemma iterate_sat_add (cap : Nat) :
    ∀ (j a : Nat), a + j ≤ cap → (fun v => min (v + 1) cap)^[j] a = a + j := by
  intro j
  induction j with
  | zero => intro a _; simp
  | succ j ih =>
    intro a h
    rw [Function.iterate_succ_apply]
    show (fun v => min (v + 1) cap)^[j] (min (a + 1) cap) = a + (j + 1)
    rw [Nat.min_eq_left (by omega : a + 1 ≤ cap)]
    rw [ih (a + 1) (by omega)]
    omega

lemma stepCounter_fst (k : CounterKind) (c : Counters) :
    (stepCounter k c).1 = readC k c := by
  cases k <;> rfl

lemma stepCounter_read_self (k : CounterKind) (c : Counters) :
    readC k (stepCounter k c).2 = updFn k (readC k c) := by
  cases k <;> rfl

lemma stepCounter_read_ne (cmd k : CounterKind) (c : Counters) (h : cmd ≠ k) :
    readC k (stepCounter cmd c).2 = readC k c := by
  cases cmd <;> cases k <;> first | rfl | exact absurd rfl h

lemma resultsFor_eq (k : CounterKind) :
    ∀ (cmds : List CounterKind) (c : Counters),
      resultsFor k cmds c =
        (List.range (List.count k cmds)).map (fun j => (updFn k)^[j] (readC k c)) := by
  intro cmds
  induction cmds with
  | nil => intro c; simp [resultsFor]
  | cons cmd rest ih =>
    intro c
    by_cases h : cmd = k
    · subst h
      rw [resultsFor]
      simp only [if_pos rfl]
      rw [List.count_cons_self, ih, stepCounter_fst, stepCounter_read_self]
      rw [List.range_succ_eq_map, List.map_cons, List.map_map]
      simp only [Function.iterate_zero_apply]
      refine congrArg (List.cons _) ?_
      apply List.map_congr_left
      intro j _
      simp [Function.comp, Function.iterate_succ_apply]
    · rw [resultsFor]
      simp only [if_neg h]
      rw [List.count_cons_of_ne (fun hk => h hk.symm), ih, stepCounter_read_ne cmd k c h]

lemma pairwise_map_range_lt {f : Nat → Nat} {n : Nat}
    (hf : ∀ i j, i < j → j < n → f i < f j) :
    List.Pairwise (fun a b => a < b) ((List.range n).map f) := by
  apply List.pairwise_iff_getElem.mpr
  intro i j hi hj hij
  have hn : ((List.range n).map f).length = n := by
    simp
  rw [List.getElem_map, List.getElem_map, List.getElem_range, List.getElem_range]
  exact hf i j hij (by omega)

/-! ## Claim theorems -/

/-- C2: `Host::push_local_event` returns false and leaves the state (hence
the queue) unchanged for every event timestamped at or after
`params.sim_end_time`, and returns true and inserts the event for every
event timestamped strictly before it; `Host::schedule_task_at_emulated_time`
consequently does the same with the event it builds for the task. -/
theorem C2_push_rejects_past_end {σ : Type} (st : ExecState σ) (ev : Event) :
    (st.simEndTime ≤ ev.time → push_local_event st ev = (false, st)) ∧
    (ev.time < st.simEndTime →
      push_local_event st ev = (true, { st with queue := push ev st.queue })) ∧
    (∀ tid t, st.simEndTime ≤ t →
      (schedule_task_at_emulated_time st tid t).1 = false ∧
      (schedule_task_at_emulated_time st tid t).2.queue = st.queue) ∧
    (∀ tid t, t < st.simEndTime →
      (schedule_task_at_emulated_time st tid t).1 = true ∧
      (schedule_task_at_emulated_time st tid t).2.queue =
        push { time := t, seq := st.eventIdCounter, tid := tid } st.queue) := by
  refine ⟨?_, ?_, ?_, ?_⟩
  · intro h
    simp [push_local_event, h]
  · intro h
    simp [push_local_event, Nat.not_le.mpr h]
  · intro tid t h
    simp [schedule_task_at_emulated_time, push_local_event, h]
  · intro tid t h
    simp [schedule_task_at_emulated_time, push_local_event, Nat.not_le.mpr h]

/-- Witness for C2: at simulation end 10, an event at time 10 is rejected with
the state untouched and an event at time 9 is accepted and inserted. -/
theorem C2_witness :
    push_local_event stNearEnd (⟨10, 0, 0⟩ : Event) = (false, stNearEnd) ∧
    push_local_event stNearEnd (⟨9, 0, 0⟩ : Event) =
      (true, { stNearEnd with queue := push ⟨9, 0, 0⟩ stNearEnd.queue }) :=
  ⟨(C2_push_rejects_past_end stNearEnd ⟨10, 0, 0⟩).1 (by decide),
   (C2_push_rejects_past_end stNearEnd ⟨9, 0, 0⟩).2.1 (by decide)⟩

/-- C5: `Host::lock_shmem` while a guard is cached hits the fatal assert;
`Host::unlock_shmem` with no cached guard hits the fatal assert; a lock
followed by an unlock starting from the empty slot succeeds and leaves the
cached guard slot empty again. -/
theorem C5_lock_protocol :
    lock_shmem (some ShmemGuard.guard) = none ∧
    unlock_shmem none = none ∧
    lock_shmem none = some (some ShmemGuard.guard) ∧
    (lock_shmem none).bind unlock_shmem = some none :=
  ⟨rfl, rfl, rfl, rfl⟩

/-- C6: dropping a Host with a cached shared-memory guard hits the fatal
teardown assert, while dropping with the slot empty succeeds. -/
theorem C6_drop_asserts_no_guard :
    host_drop (some ShmemGuard.guard) = none ∧ host_drop none = some () :=
  ⟨rfl, rfl⟩

/-- C7 (amended): every counter of the host yields strictly increasing values
with no repeats regardless of how calls to the different counters are
interleaved, as long as the number of calls to that counter does not exceed
its cell's capacity (2^64 for the u64 counters, 2^32 - 1000 for the u32
process id counter, 2^53 for the f64 priority counter); beyond that the cell
wraps (u32/u64) or saturates (f64) and values repeat. -/
theorem C7_counters_strictly_increase (k : CounterKind) (cmds : List CounterKind)
    (h : List.count k cmds ≤ capacity k) :
    List.Pairwise (fun a b => a < b) (resultsFor k cmds initCounters) := by
  rw [resultsFor_eq]
  apply pairwise_map_range_lt
  intro i j hij hj
  cases k with
  | event =>
    simp only [capacity] at h
    show (updFn CounterKind.event)^[i] (readC CounterKind.event initCounters) <
      (updFn CounterKind.event)^[j] (readC CounterKind.event initCounters)
    rw [show readC CounterKind.event initCounters = 0 from rfl]
    rw [show updFn CounterKind.event = fun v => (v + 1) % 2 ^ 64 from rfl]
    rw [iterate_mod_add (2 ^ 64) i 0 (by omega), iterate_mod_add (2 ^ 64) j 0 (by omega)]
    omega
  | process =>
    simp only [capacity] at h
    show (updFn CounterKind.process)^[i] (readC CounterKind.process initCounters) <
      (updFn CounterKind.process)^[j] (readC CounterKind.process initCounters)
    rw [show readC CounterKind.process initCounters = 1000 from rfl]
    rw [show updFn CounterKind.process = fun v => (v + 1) % 2 ^ 32 from rfl]
    rw [iterate_mod_add (2 ^ 32) i 1000 (by omega), iterate_mod_add (2 ^ 32) j 1000 (by omega)]
    omega
  | packet =>
    simp only [capacity] at h
    show (updFn CounterKind.packet)^[i] (readC CounterKind.packet initCounters) <
      (updFn CounterKind.packet)^[j] (readC CounterKind.packet initCounters)
    rw [show readC CounterKind.packet initCounters = 0 from rfl]
    rw [show updFn CounterKind.packet = fun v => (v + 1) % 2 ^ 64 from rfl]
    rw [iterate_mod_add (2 ^ 64) i 0 (by omega), iterate_mod_add (2 ^ 64) j 0 (by omega)]
    omega
  | detSeq =>
    simp only [capacity] at h
    show (updFn CounterKind.detSeq)^[i] (readC CounterKind.detSeq initCounters) <
      (updFn CounterKind.detSeq)^[j] (readC CounterKind.detSeq initCounters)
    rw [show readC CounterKind.detSeq initCounters = 0 from rfl]
    rw [show updFn CounterKind.detSeq = fun v => (v + 1) % 2 ^ 64 from rfl]
    rw [iterate_mod_add (2 ^ 64) i 0 (by omega), iterate_mod_add (2 ^ 64) j 0 (by omega)]
    omega
  | priority =>
    simp only [capacity] at h
    show (updFn CounterKind.priority)^[i] (readC CounterKind.priority initCounters) <
      (updFn CounterKind.priority)^[j] (readC CounterKind.priority initCounters)
    rw [show readC CounterKind.priority initCounters = 1 from rfl]
    rw [show updFn CounterKind.priority = fun v => min (v + 1) (2 ^ 53) from rfl]
    rw [iterate_sat_add (2 ^ 53) i 1 (by omega), iterate_sat_add (2 ^ 53) j 1 (by omega)]
    omega

/-- C7 counterexample: the claim as stated fails for unbounded N.  Calling
get_new_event_id 2^64 + 1 times makes the wrapping u64 cell return 0 both on
the first call and on call number 2^64 + 1, so the returned values are not
strictly increasing without repeats. -/
theorem C7_counterexample :
    ¬ List.Pairwise (fun a b => a < b)
      (resultsFor CounterKind.event
        (List.replicate (2 ^ 64 + 1) CounterKind.event) initCounters) := by
  intro hp
  rw [resultsFor_eq, List.count_replicate_self] at hp
  have hlen :
      ((List.range (2 ^ 64 + 1)).map
        (fun j => (updFn CounterKind.event)^[j] (readC CounterKind.event initCounters))).length
        = 2 ^ 64 + 1 := by rw [List.length_map, List.length_range]
  have h := List.pairwise_iff_getElem.mp hp 0 (2 ^ 64)
    (by rw [hlen]; omega) (by rw [hlen]; omega) (by omega)
  rw [List.getElem_map, List.getElem_map, List.getElem_range, List.getElem_range] at h
  rw [show readC CounterKind.event initCounters = 0 from rfl] at h
  rw [show updFn CounterKind.event = fun v => (v + 1) % 2 ^ 64 from rfl] at h
  rw [Function.iterate_zero_apply] at h
  rw [iterate_mod_wrap (2 ^ 64) 0 (2 ^ 64) (by omega) (by omega)] at h
  exact Nat.lt_irrefl 0 h

/-- Witness for C7 at a concrete interleaving: two event-id calls interleaved
with a process-id call yield strictly increasing event ids. -/
theorem C7_witness :
    List.count CounterKind.event
      [CounterKind.event, CounterKind.process, CounterKind.event] ≤
        capacity CounterKind.event ∧
    List.Pairwise (fun a b => a < b)
      (resultsFor CounterKind.event
        [CounterKind.event, CounterKind.process, CounterKind.event] initCounters) :=
  ⟨by decide,
   C7_counters_strictly_increase CounterKind.event
     [CounterKind.event, CounterKind.process, CounterKind.event] (by decide)⟩

/-- C8 (amended): on a freshly constructed Host the first process id is 1000
(the reserved floor), the first packet priority is 1.0 (strictly above the
0.0 control sentinel), and the event id, packet id and determinism sequence
counters all start at 0; moreover every returned process id stays at or
above the floor of 1000 as long as at most 2^32 - 1000 process ids are drawn
(past that the u32 cell wraps below the floor). -/
theorem C8_counter_initial_values :
    (get_new_process_id initCounters).1 = 1000 ∧
    (get_next_packet_priority initCounters).1 = 1 ∧
    0 < (get_next_packet_priority initCounters).1 ∧
    (get_new_event_id initCounters).1 = 0 ∧
    (get_new_packet_id initCounters).1 = 0 ∧
    (get_next_deterministic_sequence_value initCounters).1 = 0 ∧
    (∀ cmds : List CounterKind, List.count CounterKind.process cmds ≤ 2 ^ 32 - 1000 →
      ∀ v ∈ resultsFor CounterKind.process cmds initCounters, 1000 ≤ v) := by
  refine ⟨rfl, rfl, by decide, rfl, rfl, rfl, ?_⟩
  intro cmds h v hv
  rw [resultsFor_eq] at hv
  obtain ⟨j, hj, rfl⟩ := List.mem_map.mp hv
  rw [List.mem_range] at hj
  show 1000 ≤ (updFn CounterKind.process)^[j] (readC CounterKind.process initCounters)
  rw [show readC CounterKind.process initCounters = 1000 from rfl]
  rw [show updFn CounterKind.process = fun v => (v + 1) % 2 ^ 32 from rfl]
  rw [iterate_mod_add (2 ^ 32) j 1000 (by omega)]
  omega

/-- C8 counterexample: the subordinate clause that no returned process id
ever collides with the reserved values below 1000 fails for unbounded call
counts: after 2^32 - 1000 + 1 process-id calls on a fresh host the wrapped
u32 cell returns 0, which is below the reserved floor. -/
theorem C8_counterexample :
    (resultsFor CounterKind.process
        (List.replicate (2 ^ 32 - 1000 + 1) CounterKind.process)
        initCounters)[2 ^ 32 - 1000]? = some 0 ∧ (0 : Nat) < 1000 := by
  constructor
  · rw [resultsFor_eq, List.count_replicate_self]
    rw [List.getElem?_map, List.getElem?_range (by omega)]
    show some ((updFn CounterKind.process)^[2 ^ 32 - 1000]
      (readC CounterKind.process initCounters)) = some 0
    rw [show readC CounterKind.process initCounters = 1000 from rfl]
    rw [show updFn CounterKind.process = fun v => (v + 1) % 2 ^ 32 from rfl]
    rw [iterate_mod_wrap (2 ^ 32) 1000 (2 ^ 32 - 1000) (by omega) (by omega)]
  · omega

/-- Witness for C8's amended universal part at a single process-id call. -/
theorem C8_witness :
    List.count CounterKind.process [CounterKind.process] ≤ 2 ^ 32 - 1000 ∧
    1000 ≤ 1000 :=
  ⟨by decide,
   C8_counter_initial_values.2.2.2.2.2.2 [CounterKind.process] (by decide) 1000 (by decide)⟩


lemma noPast_taskNop : NoPastScheduling taskNop := by
  intro tid now cpu evts cpu2 h p hp
  have h1 : ([] : List (Nat × Nat)) = evts := congrArg Prod.fst (Option.some.inj h)
  rw [← h1] at hp
  cases hp

/-- C1 (amended): `Host::execute(until)` returns immediately (state and trace
untouched) as soon as the queue is empty or the next event's time is at or
past `until`; it performs an iteration whenever the next event is strictly
earlier than `until`; whenever it returns normally the remaining queue's next
event (if any) is at or past `until`; and provided the initial queue is
`(time, sequence)`-sorted with sequence numbers below the event id counter
and tasks never schedule events earlier than the time they run at, the
events dispatched in one call are popped in non-decreasing `(time, sequence)`
order.  (Without the no-past-scheduling proviso the ordering clause fails;
see the counterexample.) -/
theorem C1_execute_loop {σ : Type} (M : CpuModel σ) (T : TaskModel σ) (untl : Nat) :
    (∀ (fuel : Nat) (st : ExecState σ),
      (∀ t, next_event_time st.queue = some t → untl ≤ t) →
      execute M T untl (fuel + 1) st = (Outcome.completed, st, [])) ∧
    (∀ (fuel : Nat) (st : ExecState σ) (t : Nat),
      next_event_time st.queue = some t → t < untl →
      (execute M T untl (fuel + 1) st).2.2 ≠ []) ∧
    (∀ (fuel : Nat) (st : ExecState σ),
      (execute M T untl fuel st).1 = Outcome.completed →
      ∀ t, next_event_time (execute M T untl fuel st).2.1.queue = some t → untl ≤ t) ∧
    (NoPastScheduling T →
      ∀ (fuel : Nat) (st : ExecState σ),
        List.Pairwise evLe st.queue →
        (∀ e ∈ st.queue, e.seq < st.eventIdCounter) →
        List.Chain' keyLe (popKeys (execute M T untl fuel st).2.2)) := by
  refine ⟨?_, ?_, exec_completed M T untl, ?_⟩
  · intro fuel st h
    cases hq : st.queue with
    | nil => simp [execute, hq, next_event_time]
    | cons ev rest =>
      have hle : untl ≤ ev.time := h ev.time (by rw [hq]; rfl)
      simp [execute, hq, next_event_time, pop, Nat.not_lt.mpr hle]
  · intro fuel st t ht hlt
    cases hq : st.queue with
    | nil => rw [hq] at ht; cases ht
    | cons ev rest =>
      rw [hq] at ht
      have het : ev.time = t := Option.some.inj ht
      subst het
      simp only [execute, hq, next_event_time, pop, if_pos hlt]
      by_cases hd : 0 < M.delay (M.update_time st.cpu ev.time)
      · simp only [if_pos hd]
        exact List.cons_ne_nil _ _
      · simp only [if_neg hd]
        cases hrun : T.run ev.tid ev.time (M.update_time st.cpu ev.time) with
        | none => exact List.cons_ne_nil _ _
        | some val =>
          obtain ⟨evts, cpu2⟩ := val
          exact List.cons_ne_nil _ _
  · intro hT fuel st h1 h2
    have h3 : ∀ e ∈ st.queue, keyLe (0, 0) e.key := fun e _ => keyLe_bot e.key
    obtain ⟨c1, _, _⟩ := exec_chain M T untl hT fuel st (0, 0) h1 h2 h3
    cases hc : popKeys (execute M T untl fuel st).2.2 with
    | nil => exact trivial
    | cons x l =>
      rw [hc] at c1
      show List.Chain keyLe x l
      exact (List.chain_cons.mp c1).2

/-- C1 counterexample: with a task that schedules a fresh event at absolute
time 0 while executing at time 5, `Host::execute` pops keys (5,0) and then
(0,1): the dispatched events are not popped in non-decreasing
`(time, sequence)` order, because `push_local_event` accepts events earlier
than the event being executed. -/
theorem C1_counterexample :
    popKeys (execute cpuZero taskPast 10 5 stOneAt5).2.2 = [(5, 0), (0, 1)] ∧
    ¬ keyLe (5, 0) (0, 1) := by
  constructor
  · rfl
  · unfold keyLe; omega

/-- Witness for C1's ordering clause: two same-time events run under a
no-past-scheduling task are popped in creation order. -/
theorem C1_witness :
    List.Chain' keyLe (popKeys (execute cpuZero taskNop 10 5 stTwoAt3).2.2) :=
  (C1_execute_loop cpuZero taskNop 10).2.2.2 noPast_taskNop 5 stTwoAt3
    (by decide) (by decide)

/-- C3: in every iteration whose popped event owes a positive quantized CPU
delay d after the model is advanced to the event's time, the task does not
run: the tracker (when present) is notified of exactly d, the event's time
is advanced by d, the event is re-pushed through `push_local_event`, and the
loop continues with the remaining budget; the iteration's trace records a
reschedule, not an execution. -/
theorem C3_cpu_delay_reschedules {σ : Type} (M : CpuModel σ) (T : TaskModel σ)
    (untl fuel : Nat) (st : ExecState σ) (ev : Event) (rest : List Event) (d : Nat)
    (hq : st.queue = ev :: rest) (hlt : ev.time < untl)
    (hd : M.delay (M.update_time st.cpu ev.time) = d) (hpos : 0 < d) :
    execute M T untl (fuel + 1) st =
      (let st1 := (push_local_event
          { st with queue := rest, cpu := M.update_time st.cpu ev.time,
                    tracker := st.tracker.map (fun l => l ++ [d]) }
          { ev with time := ev.time + d }).2
       let r := execute M T untl fuel st1
       (r.1, r.2.1, TraceEntry.popped ev ::
         TraceEntry.rescheduled { ev with time := ev.time + d } d :: r.2.2)) := by
  subst hd
  simp only [execute, hq, next_event_time, pop, if_pos hlt, if_pos hpos]

/-- Witness for C3: a single event at time 3 with a constant owed delay of 5
is rescheduled to time 8 and the tracker is notified of 5. -/
theorem C3_witness :
    execute (cpuConst 5) taskNop 100 1 stTracked =
      (let st1 := (push_local_event
          { stTracked with queue := [], cpu := (),
                           tracker := stTracked.tracker.map (fun l => l ++ [5]) }
          { (⟨3, 0, 0⟩ : Event) with time := 3 + 5 }).2
       let r := execute (cpuConst 5) taskNop 100 0 st1
       (r.1, r.2.1, TraceEntry.popped ⟨3, 0, 0⟩ ::
         TraceEntry.rescheduled { (⟨3, 0, 0⟩ : Event) with time := 3 + 5 } 5 :: r.2.2)) :=
  C3_cpu_delay_reschedules (cpuConst 5) taskNop 100 0 stTracked ⟨3, 0, 0⟩ [] 5
    rfl (by decide) rfl (by decide)

/-- C4: an event at time 5 (before the simulation end 10) whose owed CPU
delay 7 pushes its rescheduled time to 12, at or past the end, is silently
discarded: the re-push is rejected and its boolean result ignored, the run
completes with no error, the queue ends empty and the trace holds a
reschedule entry but no execution of the task; the tracker was still
notified of the delay 7. -/
theorem C4_reschedule_past_end_discards :
    execute (cpuConst 7) taskNop 10 5 stNearEnd =
      (Outcome.completed,
       { queue := [], cpu := (), tracker := some [7], simEndTime := 10,
         currentTime := none, eventIdCounter := 1 },
       [TraceEntry.popped ⟨5, 0, 0⟩, TraceEntry.rescheduled ⟨12, 0, 0⟩ 7]) := by
  rfl

/-- C9 (amended): the ambient current-time slot is none again after any
non-panicking `Host::execute` call that starts with it clear; a task that
panics is reached with the slot holding its event's time, and the panic
leaves the slot set (the Rust code clears the slot with a plain call after
`event.execute`, not with a scope guard, so the panic path does not clear
it); a task that returns normally has the slot cleared before the loop
continues. -/
theorem C9_current_time_scoped {σ : Type} (M : CpuModel σ) (T : TaskModel σ) (untl : Nat) :
    (∀ (fuel : Nat) (st : ExecState σ),
      st.currentTime = none →
      (execute M T untl fuel st).1 ≠ Outcome.panicked →
      (execute M T untl fuel st).2.1.currentTime = none) ∧
    (∀ (fuel : Nat) (st : ExecState σ) (ev : Event) (rest : List Event),
      st.queue = ev :: rest → ev.time < untl →
      M.delay (M.update_time st.cpu ev.time) = 0 →
      T.run ev.tid ev.time (M.update_time st.cpu ev.time) = none →
      execute M T untl (fuel + 1) st =
        (Outcome.panicked,
         { st with queue := rest, cpu := M.update_time st.cpu ev.time,
                   currentTime := some ev.time },
         [TraceEntry.popped ev, TraceEntry.taskPanicked ev])) ∧
    (∀ (fuel : Nat) (st : ExecState σ) (ev : Event) (rest : List Event)
        (evts : List (Nat × Nat)) (cpu2 : σ),
      st.queue = ev :: rest → ev.time < untl →
      M.delay (M.update_time st.cpu ev.time) = 0 →
      T.run ev.tid ev.time (M.update_time st.cpu ev.time) = some (evts, cpu2) →
      execute M T untl (fuel + 1) st =
        (let st3 := { schedList evts
            { st with queue := rest, cpu := cpu2, currentTime := some ev.time } with
          currentTime := none }
         let r := execute M T untl fuel st3
         (r.1, r.2.1, TraceEntry.popped ev :: TraceEntry.executed ev :: r.2.2))) := by
  refine ⟨exec_ct M T untl, ?_, ?_⟩
  · intro fuel st ev rest hq hlt hd hrun
    simp only [execute, hq, next_event_time, pop, if_pos hlt, hd]
    rw [if_neg (by omega : ¬ (0 : Nat) < 0)]
    rw [hrun]
  · intro fuel st ev rest evts cpu2 hq hlt hd hrun
    simp only [execute, hq, next_event_time, pop, if_pos hlt, hd]
    rw [if_neg (by omega : ¬ (0 : Nat) < 0)]
    rw [hrun]

/-- C9 counterexample: a panicking task at time 4 makes `Host::execute`
return with the ambient current-time slot still set to 4: the slot is not
cleared on the panic exit path. -/
theorem C9_counterexample :
    (execute cpuZero taskPanics 10 3 stOneAt4).1 = Outcome.panicked ∧
    (execute cpuZero taskPanics 10 3 stOneAt4).2.1.currentTime = some 4 :=
  ⟨rfl, rfl⟩

/-- Witness for C9's clearing clause on a normally completing run. -/
theorem C9_witness :
    stTwoAt3.currentTime = none ∧
    (execute cpuZero taskNop 10 3 stTwoAt3).2.1.currentTime = none :=
  ⟨rfl, (C9_current_time_scoped cpuZero taskNop 10).1 3 stTwoAt3 rfl (by decide)⟩

/-- C10: `Host::execute` itself never fails: no run ends with the internal
pop-after-peek `unwrap` failing (the `internalError` outcome is unreachable
for every `until`, budget and state), and a panicked outcome only arises
from a task panic, which the trace records. -/
theorem C10_execute_never_fails {σ : Type} (M : CpuModel σ) (T : TaskModel σ) (untl : Nat) :
    ∀ (fuel : Nat) (st : ExecState σ),
      (execute M T untl fuel st).1 ≠ Outcome.internalError ∧
      ((execute M T untl fuel st).1 = Outcome.panicked →
        ∃ e, TraceEntry.taskPanicked e ∈ (execute M T untl fuel st).2.2) :=
  exec_no_internal M T untl

/-- Witness for C10 on a concrete panicking run. -/
theorem C10_witness :
    (execute cpuZero taskPanics 10 3 stOneAt4).1 ≠ Outcome.internalError ∧
    ∃ e, TraceEntry.taskPanicked e ∈ (execute cpuZero taskPanics 10 3 stOneAt4).2.2 :=
  ⟨(C10_execute_never_fails cpuZero taskPanics 10 3 stOneAt4).1,
   (C10_execute_never_fails cpuZero taskPanics 10 3 stOneAt4).2 rfl⟩


end Shadow
